import Mathlib

/-!
Verification development for the DevInsights backend analytics engine.

The contribution graph store (Neo4j) is shallowly embedded as lists of
entity nodes and key-referencing edges; each Cypher query of
`services/GraphQueries.py` and `services/Graph.analytics.py`, the ingestion
path of `services/Graph_db_service.py`, and the replacements endpoint of
`controllers/developer_insights_controller.py` is translated into a Lean
function over that store.

Modelling conventions:
- Machine floats are modelled by exact rationals; the only genuinely
  irrational quantities (`sqrt` in the standard deviation, and the skewness
  built from it) are modelled in `ℝ`.
- Neo4j row order is unspecified; we determinize it as store-list order, and
  `ORDER BY` as a stable sort (`List.insertionSort`), matching Python's
  stable `list.sort`.
- A Cypher `LIMIT $n` is modelled as `List.take n.toNat`; Python's
  `xs[:n]` slice keeps Python semantics for negative `n`.
-/

namespace DevInsights

/-- The three change-edge types `{ADDED, MODIFIED, DELETED}`. -/
inductive ChangeType
  | added
  | modified
  | deleted
  deriving DecidableEq, Repr

/-- A `Repository` node: key `name`, attributes `url`, `description`
(`_create_repository`). -/
structure RepoNode where
  name : String
  url : String
  description : String
  deriving DecidableEq, Repr

/-- A `Developer` node: key `(github, repository)`, attributes `name`, `email`
(`_create_developer`). -/
structure DevNode where
  github : String
  repository : String
  name : String
  email : String
  deriving DecidableEq, Repr

/-- A `File` node: key `(path, repository)`, attribute `filename`
(`_handle_file_relationships`). -/
structure FileNode where
  path : String
  repository : String
  filename : String
  deriving DecidableEq, Repr

/-- A `Commit` node: key `hash`, attributes `timestamp`, `message`
(`_create_commit`). -/
structure CommitNode where
  hash : String
  timestamp : String
  message : String
  deriving DecidableEq, Repr

/-- Natural key of a developer node. -/
def devKey (d : DevNode) : String × String := (d.github, d.repository)

/-- Natural key of a file node. -/
def fileKey (f : FileNode) : String × String := (f.path, f.repository)

/-- The contribution graph store: node lists plus key-referencing edge lists.
Edges: `devBelongs`/`fileBelongs`/`commitBelongs` are `BELONGS_TO` edges to a
repository name, `committedBy` is `(c)-[:COMMITTED_BY]->(d)`, and `changes`
is a typed `(c)-[:ADDED|MODIFIED|DELETED]->(f)` edge. -/
structure GraphStore where
  repos : List RepoNode
  devs : List DevNode
  files : List FileNode
  commits : List CommitNode
  devBelongs : List ((String × String) × String)
  fileBelongs : List ((String × String) × String)
  commitBelongs : List (String × String)
  committedBy : List (String × (String × String))
  changes : List ((String × (String × String)) × ChangeType)
  deriving DecidableEq, Repr

/-- `MATCH (r:Repository {name: $repo_name})` succeeds. -/
def repoExists (s : GraphStore) (r : String) : Prop :=
  ∃ n ∈ s.repos, n.name = r

instance (s : GraphStore) (r : String) : Decidable (repoExists s r) :=
  inferInstanceAs (Decidable (∃ n ∈ s.repos, n.name = r))

/-- A typed change edge from commit `c` to file `f` exists
(`(c)-[:ADDED|MODIFIED|DELETED]->(f)`). -/
def hasChange (s : GraphStore) (c : CommitNode) (f : FileNode) : Prop :=
  ∃ e ∈ s.changes, e.1 = (c.hash, fileKey f)

instance (s : GraphStore) (c : CommitNode) (f : FileNode) :
    Decidable (hasChange s c f) :=
  inferInstanceAs (Decidable (∃ e ∈ s.changes, e.1 = (c.hash, fileKey f)))

/-- `(c)-[:COMMITTED_BY]->(d)` edge. -/
def isCommittedBy (s : GraphStore) (c : CommitNode) (d : DevNode) : Prop :=
  (c.hash, devKey d) ∈ s.committedBy

instance (s : GraphStore) (c : CommitNode) (d : DevNode) :
    Decidable (isCommittedBy s c d) :=
  inferInstanceAs (Decidable ((c.hash, devKey d) ∈ s.committedBy))

/-- The pattern `(d)<-[:COMMITTED_BY]-(c:Commit)-[:ADDED|MODIFIED|DELETED]->(f)`
matches for some commit node `c`. -/
def touches (s : GraphStore) (d : DevNode) (f : FileNode) : Prop :=
  ∃ c ∈ s.commits, isCommittedBy s c d ∧ hasChange s c f

instance (s : GraphStore) (d : DevNode) (f : FileNode) :
    Decidable (touches s d f) :=
  inferInstanceAs (Decidable (∃ c ∈ s.commits, isCommittedBy s c d ∧ hasChange s c f))

/-- `MATCH (d:Developer)-[:BELONGS_TO]->(r)` for the repository named `r`
(empty when the repository node is absent). -/
def devsOf (s : GraphStore) (r : String) : List DevNode :=
  if repoExists s r then
    s.devs.filter (fun d => decide ((devKey d, r) ∈ s.devBelongs))
  else []

/-- `MATCH (f:File)-[:BELONGS_TO]->(r)` for the repository named `r`
(empty when the repository node is absent). -/
def filesOf (s : GraphStore) (r : String) : List FileNode :=
  if repoExists s r then
    s.files.filter (fun f => decide ((fileKey f, r) ∈ s.fileBelongs))
  else []

/-- The distinct files reachable from `d` through its authored commits; the
file is not constrained to the repository, exactly as the `reachable_file`
pattern of `get_jacks` leaves it unconstrained. -/
def touchedFiles (s : GraphStore) (d : DevNode) : List FileNode :=
  s.files.filter (fun f => decide (touches s d f))

/-- Cypher `LIMIT $n`: take the first `n` rows (claims only exercise
non-negative limits through this path). -/
def cypherLimit (n : Int) (l : List α) : List α := l.take n.toNat

/-- Python's `xs[:n]` slice: for `n < 0` it drops the last `|n|` elements. -/
def pythonSlice (n : Int) (l : List α) : List α :=
  if 0 ≤ n then l.take n.toNat else l.take ((l.length : Int) + n).toNat

/-- One result row of `GraphQueries.get_jacks`. -/
structure JackRow where
  github : String
  name : String
  email : String
  files_reached : Nat
  total_files : Nat
  knowledge_breadth : ℚ
  deriving DecidableEq, Repr

/-- `ORDER BY knowledge_breadth DESC` as a relation. -/
def jackOrder (a b : JackRow) : Prop := b.knowledge_breadth ≤ a.knowledge_breadth

instance : DecidableRel jackOrder :=
  fun a b => inferInstanceAs (Decidable (b.knowledge_breadth ≤ a.knowledge_breadth))

instance : IsTotal JackRow jackOrder := ⟨fun a b => le_total b.knowledge_breadth a.knowledge_breadth⟩

instance : IsTrans JackRow jackOrder := ⟨fun _ _ _ h1 h2 => le_trans h2 h1⟩

/-- `GraphQueries.get_jacks`: all developers of the repository with their
file coverage, ordered by decreasing coverage, capped at `limit`.  The Cypher
query has no `min_coverage` filter and no tie-break beyond the coverage key;
when the repository has no files (or is absent) the initial `MATCH` chain
produces no rows and the result is empty. -/
def get_jacks (s : GraphStore) (repo : String) (limit : Int) : List JackRow :=
  let devs := devsOf s repo
  let total := (filesOf s repo).length
  if total = 0 then []
  else
    let rows := devs.map (fun d =>
      { github := d.github
        name := d.name
        email := d.email
        files_reached := (touchedFiles s d).length
        total_files := total
        knowledge_breadth := ((touchedFiles s d).length : ℚ) / (total : ℚ) })
    cypherLimit limit (List.insertionSort jackOrder rows)

/-- One result row of `RepositoryAnalytics.get_jack_developers`. -/
structure JackDevRow where
  github : String
  name : String
  email : String
  files_touched : Nat
  total_files : Nat
  coverage : ℚ
  deriving DecidableEq, Repr

/-- `ORDER BY coverage DESC` as a relation. -/
def jackDevOrder (a b : JackDevRow) : Prop := b.coverage ≤ a.coverage

instance : DecidableRel jackDevOrder :=
  fun a b => inferInstanceAs (Decidable (b.coverage ≤ a.coverage))

instance : IsTotal JackDevRow jackDevOrder := ⟨fun a b => le_total b.coverage a.coverage⟩

instance : IsTrans JackDevRow jackDevOrder := ⟨fun _ _ _ h1 h2 => le_trans h2 h1⟩

/-- `RepositoryAnalytics.get_jack_developers`: filters by
`coverage >= min_file_coverage`, orders by decreasing coverage, and applies
no result cap. -/
def get_jack_developers (s : GraphStore) (repo : String) (min_file_coverage : ℚ) :
    List JackDevRow :=
  let total := (filesOf s repo).length
  if total = 0 then []
  else
    let rows := (devsOf s repo).map (fun d =>
      { github := d.github
        name := d.name
        email := d.email
        files_touched := (touchedFiles s d).length
        total_files := total
        coverage := ((touchedFiles s d).length : ℚ) / (total : ℚ) })
    List.insertionSort jackDevOrder
      (rows.filter (fun row => decide (min_file_coverage ≤ row.coverage)))

/-- Coverage exactly as computed inside `get_jacks`:
`toFloat(files_touched) / total_files`. -/
def coverageOf (s : GraphStore) (repo : String) (d : DevNode) : ℚ :=
  ((touchedFiles s d).length : ℚ) / (((filesOf s repo).length : ℕ) : ℚ)

/-- Concrete store: repository `o/r` with two files; developers inserted in
order `zed`, `amy`, `bob`; `zed` and `amy` each modified `a.py` in one commit
and `bob` authored nothing. -/
def exC1 : GraphStore :=
  { repos := [{ name := "o/r", url := "u", description := "" }]
    devs := [{ github := "zed", repository := "o/r", name := "Z", email := "z@x" },
             { github := "amy", repository := "o/r", name := "A", email := "a@x" },
             { github := "bob", repository := "o/r", name := "B", email := "b@x" }]
    files := [{ path := "a.py", repository := "o/r", filename := "a.py" },
              { path := "b.py", repository := "o/r", filename := "b.py" }]
    commits := [{ hash := "c1", timestamp := "t1", message := "m1" },
                { hash := "c2", timestamp := "t2", message := "m2" }]
    devBelongs := [(("zed", "o/r"), "o/r"), (("amy", "o/r"), "o/r"), (("bob", "o/r"), "o/r")]
    fileBelongs := [(("a.py", "o/r"), "o/r"), (("b.py", "o/r"), "o/r")]
    commitBelongs := [("c1", "o/r"), ("c2", "o/r")]
    committedBy := [("c1", ("zed", "o/r")), ("c2", ("amy", "o/r"))]
    changes := [(("c1", ("a.py", "o/r")), ChangeType.modified),
                (("c2", ("a.py", "o/r")), ChangeType.modified)] }

/-- C1, counterexample.  With `min_coverage = 3/10` the claim demands that
only `amy` and `zed` (coverage `1/2` each, ties by handle ascending) are
returned.  The code returns `bob` with coverage `0 < 3/10` — there is no
`min_coverage` filter — and orders the `zed`/`amy` tie in store order, not
handle-ascending order (`"amy" < "zed"`). -/
theorem jacks_claim_counterexample :
    ((get_jacks exC1 "o/r" 10).map (fun row => (row.github, row.knowledge_breadth))
      = [("zed", 1/2), ("amy", 1/2), ("bob", 0)])
    ∧ ¬ ((3 : ℚ)/10 ≤ 0) ∧ "amy" < "zed" := by
  refine ⟨?_, ?_, ?_⟩ <;> with_unfolding_all decide

/-- C1, amended.  `GraphQueries.get_jacks` returns rows for the repository's
developers with no `min_coverage` filter: the result is sorted by
non-increasing `knowledge_breadth` (ties kept in match order) and, whenever
the repository has files, its length is `min limit #devs` — every developer
appears when `limit` allows, whatever its coverage.
`RepositoryAnalytics.get_jack_developers` does filter by
`coverage >= min_file_coverage` and sorts by non-increasing coverage, but
applies no result cap: it returns one row per developer passing the filter. -/
theorem jacks_amended (s : GraphStore) (repo : String) (limit : Int) (mc : ℚ) :
    List.Pairwise jackOrder (get_jacks s repo limit)
    ∧ (∀ row ∈ get_jacks s repo limit, ∃ d ∈ devsOf s repo,
        row.github = d.github ∧ row.knowledge_breadth = coverageOf s repo d)
    ∧ (filesOf s repo ≠ [] →
        (get_jacks s repo limit).length = min limit.toNat (devsOf s repo).length)
    ∧ (∀ row ∈ get_jack_developers s repo mc, mc ≤ row.coverage)
    ∧ List.Pairwise jackDevOrder (get_jack_developers s repo mc)
    ∧ (filesOf s repo ≠ [] →
        (get_jack_developers s repo mc).length
          = ((devsOf s repo).filter (fun d => decide (mc ≤ coverageOf s repo d))).length) := by
  constructor
  · unfold get_jacks
    by_cases h : (filesOf s repo).length = 0
    · simp [h]
    · simp only [h, if_neg, ite_false, cypherLimit]
      exact (List.sorted_insertionSort jackOrder _).sublist (List.take_sublist _ _)
  constructor
  · intro row hrow
    unfold get_jacks at hrow
    by_cases h : (filesOf s repo).length = 0
    · simp [h] at hrow
    · simp only [h, ite_false, cypherLimit] at hrow
      have hmem := (List.mem_insertionSort jackOrder).1 (List.take_sublist _ _ |>.mem hrow)
      obtain ⟨d, hd, hdrow⟩ := List.mem_map.1 hmem
      exact ⟨d, hd, by rw [← hdrow], by rw [← hdrow]; rfl⟩
  constructor
  · intro hne
    have h : (filesOf s repo).length ≠ 0 := by simpa using hne
    unfold get_jacks
    simp only [h, ite_false, cypherLimit]
    rw [List.length_take, List.length_insertionSort, List.length_map]
  constructor
  · intro row hrow
    unfold get_jack_developers at hrow
    by_cases h : (filesOf s repo).length = 0
    · simp [h] at hrow
    · simp only [h, ite_false] at hrow
      have hmem := (List.mem_insertionSort jackDevOrder).1 hrow
      have := (List.mem_filter.1 hmem).2
      simpa using this
  constructor
  · unfold get_jack_developers
    by_cases h : (filesOf s repo).length = 0
    · simp [h]
    · simp only [h, ite_false]
      exact List.sorted_insertionSort jackDevOrder _
  · intro hne
    have h : (filesOf s repo).length ≠ 0 := by simpa using hne
    unfold get_jack_developers
    simp only [h, ite_false]
    rw [List.length_insertionSort, List.filter_map, List.length_map]
    congr 1

/-- C1, witness for the amended theorem at the concrete store `exC1`. -/
theorem jacks_amended_witness :
    List.Pairwise jackOrder (get_jacks exC1 "o/r" 10)
    ∧ (get_jacks exC1 "o/r" 10).length = min (Int.toNat 10) (devsOf exC1 "o/r").length
    ∧ (get_jack_developers exC1 "o/r" (3/10)).length
        = ((devsOf exC1 "o/r").filter
            (fun d => decide ((3 : ℚ)/10 ≤ coverageOf exC1 "o/r" d))).length := by
  have h := jacks_amended exC1 "o/r" 10 (3/10)
  exact ⟨h.1, h.2.2.1 (by decide), h.2.2.2.2.2 (by decide)⟩

/-- Distinct developers contributing to a file, per the pattern
`(c:Commit)-[:ADDED|MODIFIED|DELETED]->(f)`, `(c)-[:COMMITTED_BY]->(d)` used
by `get_mavens` and `get_critical_files`. -/
def contributorsOf (s : GraphStore) (f : FileNode) : List DevNode :=
  s.devs.filter (fun d => decide (touches s d f))

/-- The `(github, file_path)` rows of the first `get_mavens` query: for each
repository file with exactly one distinct contributor, one row per matched
combination of change edge into the file, commit node, authorship edge and
developer node — one row per authoring change, not per distinct file. -/
def mavenRows (s : GraphStore) (repo : String) : List (String × String) :=
  (filesOf s repo).flatMap (fun f =>
    if (contributorsOf s f).length = 1 then
      (s.changes.filter (fun e => decide (e.1.2 = fileKey f))).flatMap (fun e =>
        (s.commits.filter (fun c => decide (c.hash = e.1.1))).flatMap (fun c =>
          (s.committedBy.filter (fun cb => decide (cb.1 = c.hash))).flatMap (fun cb =>
            (s.devs.filter (fun d => decide (devKey d = cb.2))).map (fun d =>
              (d.github, f.path)))))
    else [])

/-- One step of building the insertion-ordered Python dict
`dev_to_files[github].append(file_path)`. -/
def groupAppend (acc : List (String × List String)) (row : String × String) :
    List (String × List String) :=
  if acc.any (fun g => decide (g.1 = row.1)) then
    acc.map (fun g => if g.1 = row.1 then (g.1, g.2 ++ [row.2]) else g)
  else acc ++ [(row.1, [row.2])]

/-- The `dev_to_files` dict of `get_mavens`, in insertion order. -/
def mavenGroups (s : GraphStore) (repo : String) : List (String × List String) :=
  (mavenRows s repo).foldl groupAppend []

/-- Developer detail lookup of `get_mavens`:
`MATCH (d:Developer {github: $github})-[:BELONGS_TO]->(:Repository {name: $repo_name})`. -/
def devDetail (s : GraphStore) (repo : String) (github : String) : Option DevNode :=
  (devsOf s repo).find? (fun d => decide (d.github = github))

/-- One maven result record. -/
structure MavenRecord where
  github : String
  name : Option String
  email : Option String
  rare_files_count : Nat
  mavenness : ℚ
  deriving DecidableEq, Repr

/-- Python `maven_results.sort(key=mavenness, reverse=True)` as a relation. -/
def mavenOrder (a b : MavenRecord) : Prop := b.mavenness ≤ a.mavenness

instance : DecidableRel mavenOrder :=
  fun a b => inferInstanceAs (Decidable (b.mavenness ≤ a.mavenness))

instance : IsTotal MavenRecord mavenOrder := ⟨fun a b => le_total b.mavenness a.mavenness⟩

instance : IsTrans MavenRecord mavenOrder := ⟨fun _ _ _ h1 h2 => le_trans h2 h1⟩

/-- One maven record as built inside the `get_mavens` loop: developer
details via the detail query, `rare_files_count = len(files)` and
`mavenness = rare_files_count / total_files`. -/
def mavenRecordOf (s : GraphStore) (repo : String) (g : String × List String) :
    MavenRecord :=
  { github := g.1
    name := (devDetail s repo g.1).map DevNode.name
    email := (devDetail s repo g.1).map DevNode.email
    rare_files_count := g.2.length
    mavenness := (g.2.length : ℚ) / (((filesOf s repo).length : ℕ) : ℚ) }

/-- `GraphQueries.get_mavens`: group the sole-contributor rows per developer,
score `len(files) / total_files`, sort by decreasing mavenness (Python's
stable sort) and apply the Python slice `[:limit]`. -/
def get_mavens (s : GraphStore) (repo : String) (limit : Int) : List MavenRecord :=
  pythonSlice limit
    (List.insertionSort mavenOrder ((mavenGroups s repo).map (mavenRecordOf s repo)))

/-- The collaborator condition of `get_connectors`: some commit of `d`
touches a file that some commit of `other` also touches, with
`d <> other AND other.repository = $repo_name` checked by the caller. -/
def collaboratesWith (s : GraphStore) (d other : DevNode) : Prop :=
  ∃ c1 ∈ s.commits, isCommittedBy s c1 d ∧
    ∃ f ∈ s.files, hasChange s c1 f ∧
      ∃ c2 ∈ s.commits, hasChange s c2 f ∧ isCommittedBy s c2 other

instance (s : GraphStore) (d other : DevNode) : Decidable (collaboratesWith s d other) :=
  inferInstanceAs (Decidable (∃ c1 ∈ s.commits, _ ∧ ∃ f ∈ s.files, _ ∧ ∃ c2 ∈ s.commits, _ ∧ _))

/-- A file counted by `count(DISTINCT f)` in `get_connectors`: the second
`OPTIONAL MATCH` leg `(c1)-[...]->(f)<-[...]-(c2)` matched (with `c2`
possibly equal to `c1`; the `other` leg may be null). -/
def sharedFileOf (s : GraphStore) (d : DevNode) (f : FileNode) : Prop :=
  ∃ c1 ∈ s.commits, isCommittedBy s c1 d ∧ hasChange s c1 f ∧
    ∃ c2 ∈ s.commits, hasChange s c2 f

instance (s : GraphStore) (d : DevNode) (f : FileNode) : Decidable (sharedFileOf s d f) :=
  inferInstanceAs (Decidable (∃ c1 ∈ s.commits, _ ∧ _ ∧ ∃ c2 ∈ s.commits, _))

/-- One connector result row. -/
structure ConnectorRow where
  github : String
  name : String
  email : String
  collaborator_count : Nat
  shared_file_count : Nat
  betweenness_centrality : Nat
  deriving DecidableEq, Repr

/-- `ORDER BY betweenness_centrality DESC` as a relation. -/
def connectorOrder (a b : ConnectorRow) : Prop :=
  b.betweenness_centrality ≤ a.betweenness_centrality

instance : DecidableRel connectorOrder :=
  fun a b => inferInstanceAs (Decidable (b.betweenness_centrality ≤ a.betweenness_centrality))

instance : IsTotal ConnectorRow connectorOrder :=
  ⟨fun a b => le_total b.betweenness_centrality a.betweenness_centrality⟩

instance : IsTrans ConnectorRow connectorOrder := ⟨fun _ _ _ h1 h2 => le_trans h2 h1⟩

/-- `GraphQueries.get_connectors`: for every developer of the repository,
count distinct collaborators and distinct shared files, score their product,
order by decreasing score, capped at `limit`. -/
def get_connectors (s : GraphStore) (repo : String) (limit : Int) : List ConnectorRow :=
  let rows := (devsOf s repo).map (fun d =>
    let collab := (s.devs.filter (fun o =>
      decide (¬ o = d ∧ o.repository = repo ∧ collaboratesWith s d o))).length
    let shared := (s.files.filter (fun f => decide (sharedFileOf s d f))).length
    { github := d.github
      name := d.name
      email := d.email
      collaborator_count := collab
      shared_file_count := shared
      betweenness_centrality := collab * shared })
  cypherLimit limit (List.insertionSort connectorOrder rows)

/-- A store with no repository node at all. -/
def exEmpty : GraphStore :=
  { repos := [], devs := [], files := [], commits := []
    devBelongs := [], fileBelongs := [], commitBelongs := []
    committedBy := [], changes := [] }

/-- Concrete store: repository `o/r` with developers `ann` and `ben`, each
the sole contributor of one file, so `get_mavens` produces two records. -/
def exC2 : GraphStore :=
  { repos := [{ name := "o/r", url := "u", description := "" }]
    devs := [{ github := "ann", repository := "o/r", name := "A", email := "a@x" },
             { github := "ben", repository := "o/r", name := "B", email := "b@x" }]
    files := [{ path := "x.py", repository := "o/r", filename := "x.py" },
              { path := "y.py", repository := "o/r", filename := "y.py" }]
    commits := [{ hash := "k1", timestamp := "t1", message := "m1" },
                { hash := "k2", timestamp := "t2", message := "m2" }]
    devBelongs := [(("ann", "o/r"), "o/r"), (("ben", "o/r"), "o/r")]
    fileBelongs := [(("x.py", "o/r"), "o/r"), (("y.py", "o/r"), "o/r")]
    commitBelongs := [("k1", "o/r"), ("k2", "o/r")]
    committedBy := [("k1", ("ann", "o/r")), ("k2", ("ben", "o/r"))]
    changes := [(("k1", ("x.py", "o/r")), ChangeType.added),
                (("k2", ("y.py", "o/r")), ChangeType.added)] }

/-- C2, counterexample.  `get_mavens` applies the Python slice
`maven_results[:limit]`; for `limit = -1 ≤ 0` on a repository with two maven
records the result has length `1`, not the empty list the claim requires. -/
theorem roleQueries_empty_counterexample :
    (-1 : Int) ≤ 0 ∧ (get_mavens exC2 "o/r" (-1)).length = 1 := by
  refine ⟨by decide, ?_⟩
  with_unfolding_all decide

/-- C2, amended.  The three role-classifier queries do return an empty list
for a repository absent from the store, and for `limit = 0`; but a negative
limit is not guaranteed to give an empty list (`get_mavens` slices from the
end, see the counterexample). -/
theorem roleQueries_empty_amended (s : GraphStore) (repo : String) (limit : Int) :
    (¬ repoExists s repo →
      get_jacks s repo limit = [] ∧ get_mavens s repo limit = []
        ∧ get_connectors s repo limit = [])
    ∧ (get_jacks s repo 0 = [] ∧ get_mavens s repo 0 = []
        ∧ get_connectors s repo 0 = []) := by
  have hdevs : ¬ repoExists s repo → devsOf s repo = [] := by
    intro h; simp [devsOf, h]
  have hfiles : ¬ repoExists s repo → filesOf s repo = [] := by
    intro h; simp [filesOf, h]
  constructor
  · intro h
    refine ⟨?_, ?_, ?_⟩
    · simp [get_jacks, hfiles h]
    · simp [get_mavens, mavenGroups, mavenRows, hfiles h, pythonSlice]
    · simp [get_connectors, hdevs h, cypherLimit]
  · refine ⟨?_, ?_, ?_⟩
    · unfold get_jacks cypherLimit
      by_cases h : (filesOf s repo).length = 0 <;> simp [h]
    · simp [get_mavens, pythonSlice]
    · simp [get_connectors, cypherLimit]

/-- C2, witness: empty results at a store without the repository and at
`limit = 0` on a populated store. -/
theorem roleQueries_empty_witness :
    (get_jacks exEmpty "o/r" 5 = [] ∧ get_mavens exEmpty "o/r" 5 = []
      ∧ get_connectors exEmpty "o/r" 5 = [])
    ∧ (get_jacks exC2 "o/r" 0 = [] ∧ get_mavens exC2 "o/r" 0 = []
      ∧ get_connectors exC2 "o/r" 0 = []) := by
  have h1 := roleQueries_empty_amended exEmpty "o/r" 5
  have h2 := roleQueries_empty_amended exC2 "o/r" 5
  exact ⟨h1.1 (by decide), h2.2⟩

/-- Store well-formedness: natural keys are unique (the Neo4j `MERGE`
invariant) and a `BELONGS_TO` edge of a file/developer targets the
repository recorded in its own key, as ingestion guarantees. -/
def WF (s : GraphStore) : Prop :=
  (s.repos.map RepoNode.name).Nodup ∧ (s.devs.map devKey).Nodup ∧
  (s.files.map fileKey).Nodup ∧ (s.commits.map CommitNode.hash).Nodup ∧
  (∀ e ∈ s.fileBelongs, e.1.2 = e.2) ∧ (∀ e ∈ s.devBelongs, e.1.2 = e.2)

instance (s : GraphStore) : Decidable (WF s) :=
  inferInstanceAs (Decidable (_ ∧ _ ∧ _ ∧ _ ∧ _ ∧ _))

lemma mavenRows_mem {s : GraphStore} {repo : String} {row : String × String}
    (h : row ∈ mavenRows s repo) :
    ∃ f ∈ filesOf s repo, f.path = row.2 ∧ (contributorsOf s f).length = 1 ∧
      ∃ d ∈ contributorsOf s f, d.github = row.1 := by
  unfold mavenRows at h
  obtain ⟨f, hf, hrow⟩ := List.mem_flatMap.1 h
  by_cases hone : (contributorsOf s f).length = 1
  · rw [if_pos hone] at hrow
    obtain ⟨e, he, hrow⟩ := List.mem_flatMap.1 hrow
    obtain ⟨c, hc, hrow⟩ := List.mem_flatMap.1 hrow
    obtain ⟨cb, hcb, hrow⟩ := List.mem_flatMap.1 hrow
    obtain ⟨d, hd, hrow⟩ := List.mem_map.1 hrow
    obtain ⟨he, hekey⟩ := List.mem_filter.1 he
    obtain ⟨hc, hchash⟩ := List.mem_filter.1 hc
    obtain ⟨hcb, hcbhash⟩ := List.mem_filter.1 hcb
    obtain ⟨hd, hdkey⟩ := List.mem_filter.1 hd
    rw [decide_eq_true_iff] at hekey hchash hcbhash hdkey
    refine ⟨f, hf, by rw [← hrow], hone, d, ?_, by rw [← hrow]⟩
    refine List.mem_filter.2 ⟨hd, decide_eq_true ?_⟩
    refine ⟨c, hc, ?_, e, he, ?_⟩
    · show (c.hash, devKey d) ∈ s.committedBy
      have : cb = (c.hash, devKey d) := by
        apply Prod.ext
        · rw [hcbhash]
        · rw [hdkey]
      rw [← this]; exact hcb
    · apply Prod.ext
      · rw [← hchash]
      · exact hekey
  · rw [if_neg hone] at hrow
    simp at hrow

lemma filesOf_repository {s : GraphStore} {repo : String} (hwf : WF s)
    {f : FileNode} (hf : f ∈ filesOf s repo) : f.repository = repo := by
  unfold filesOf at hf
  by_cases hr : repoExists s repo
  · rw [if_pos hr] at hf
    have := List.mem_filter.1 hf
    have hedge := decide_eq_true_iff.1 this.2
    exact hwf.2.2.2.2.1 _ hedge
  · rw [if_neg hr] at hf
    simp at hf

lemma mavenRows_functional {s : GraphStore} {repo : String} (hwf : WF s)
    {a b : String × String} (ha : a ∈ mavenRows s repo) (hb : b ∈ mavenRows s repo)
    (hpath : a.2 = b.2) : a.1 = b.1 := by
  obtain ⟨f1, hf1, hp1, hone1, d1, hd1, hg1⟩ := mavenRows_mem ha
  obtain ⟨f2, hf2, hp2, hone2, d2, hd2, hg2⟩ := mavenRows_mem hb
  have hfile1 : f1 ∈ s.files := by
    unfold filesOf at hf1
    by_cases hr : repoExists s repo
    · rw [if_pos hr] at hf1; exact (List.mem_filter.1 hf1).1
    · rw [if_neg hr] at hf1; simp at hf1
  have hfile2 : f2 ∈ s.files := by
    unfold filesOf at hf2
    by_cases hr : repoExists s repo
    · rw [if_pos hr] at hf2; exact (List.mem_filter.1 hf2).1
    · rw [if_neg hr] at hf2; simp at hf2
  have hkey : fileKey f1 = fileKey f2 := by
    unfold fileKey
    rw [filesOf_repository hwf hf1, filesOf_repository hwf hf2, hp1, hp2, hpath]
  have hf12 : f1 = f2 := List.inj_on_of_nodup_map hwf.2.2.1 hfile1 hfile2 hkey
  subst hf12
  obtain ⟨u, hu⟩ := List.length_eq_one.1 hone1
  rw [hu] at hd1 hd2
  have e1 : d1 = u := List.mem_singleton.1 hd1
  have e2 : d2 = u := List.mem_singleton.1 hd2
  rw [← hg1, ← hg2, e1, e2]

lemma foldl_groupAppend_mem {rows : List (String × String)} :
    ∀ (acc : List (String × List String)) (g : String × List String),
      g ∈ rows.foldl groupAppend acc → ∀ p ∈ g.2,
      (g.1, p) ∈ rows ∨ ∃ g0 ∈ acc, g0.1 = g.1 ∧ p ∈ g0.2 := by
  induction rows with
  | nil =>
      intro acc g hg p hp
      exact Or.inr ⟨g, hg, rfl, hp⟩
  | cons r t ih =>
      intro acc g hg p hp
      have h := ih (groupAppend acc r) g hg p hp
      rcases h with h | ⟨g0, hg0, hkey, hpg0⟩
      · exact Or.inl (List.mem_cons_of_mem r h)
      · unfold groupAppend at hg0
        by_cases hany : acc.any (fun g => decide (g.1 = r.1))
        · rw [if_pos hany] at hg0
          obtain ⟨g1, hg1, hug⟩ := List.mem_map.1 hg0
          by_cases hk : g1.1 = r.1
          · rw [if_pos hk] at hug
            rcases List.mem_append.1 (by rw [← hug] at hpg0; exact hpg0) with hpm | hpm
            · exact Or.inr ⟨g1, hg1, by rw [← hkey, ← hug], hpm⟩
            · have hpr : p = r.2 := List.mem_singleton.1 hpm
              have hgr : g.1 = r.1 := by rw [← hkey, ← hug]; exact hk
              left
              rw [hpr, hgr]
              exact List.mem_cons_self r t
          · rw [if_neg hk] at hug
            exact Or.inr ⟨g1, hg1, by rw [hug]; exact hkey, by rw [hug]; exact hpg0⟩
        · rw [if_neg hany] at hg0
          rcases List.mem_append.1 hg0 with hm | hm
          · exact Or.inr ⟨g0, hm, hkey, hpg0⟩
          · have : g0 = (r.1, [r.2]) := List.mem_singleton.1 hm
            rw [this] at hkey hpg0
            have hpr : p = r.2 := List.mem_singleton.1 hpg0
            left
            rw [hpr, ← hkey]
            exact List.mem_cons_self r t

lemma mavenGroups_mem_rows {s : GraphStore} {repo : String}
    {g : String × List String} (hg : g ∈ mavenGroups s repo) :
    ∀ p ∈ g.2, (g.1, p) ∈ mavenRows s repo := by
  intro p hp
  have h := foldl_groupAppend_mem [] g hg p hp
  rcases h with h | ⟨g0, hg0, _⟩
  · exact h
  · simp at hg0

/-- Total number of file-path entries held by the accumulated groups. -/
def groupSizes (acc : List (String × List String)) : ℕ :=
  (acc.map (fun g => g.2.length)).sum

lemma groupAppend_keys (acc : List (String × List String)) (row : String × String) :
    (groupAppend acc row).map Prod.fst =
      if acc.any (fun g => decide (g.1 = row.1)) then acc.map Prod.fst
      else acc.map Prod.fst ++ [row.1] := by
  unfold groupAppend
  by_cases hany : acc.any (fun g => decide (g.1 = row.1))
  · rw [if_pos hany, if_pos hany, List.map_map]
    apply List.map_congr_left
    intro g _
    by_cases hk : g.1 = row.1
    · simp [hk]
    · simp [hk]
  · rw [if_neg hany, if_neg hany, List.map_append]
    rfl

lemma groupAppend_keys_nodup {acc : List (String × List String)}
    {row : String × String} (h : (acc.map Prod.fst).Nodup) :
    ((groupAppend acc row).map Prod.fst).Nodup := by
  rw [groupAppend_keys]
  by_cases hany : acc.any (fun g => decide (g.1 = row.1))
  · rw [if_pos hany]; exact h
  · rw [if_neg hany]
    have hnot : row.1 ∉ acc.map Prod.fst := by
      intro hmem
      obtain ⟨g, hgacc, hgfst⟩ := List.mem_map.1 hmem
      exact hany (List.any_eq_true.2 ⟨g, hgacc, decide_eq_true hgfst⟩)
    simp [List.nodup_append, h, hnot]

lemma groupAppend_sum {acc : List (String × List String)} {row : String × String}
    (hnd : (acc.map Prod.fst).Nodup) :
    groupSizes (groupAppend acc row) = groupSizes acc + 1 := by
  induction acc with
  | nil => simp [groupAppend, groupSizes]
  | cons a t ih =>
      unfold groupAppend groupSizes
      by_cases hk : a.1 = row.1
      · have hany : (a :: t).any (fun g => decide (g.1 = row.1)) = true :=
          List.any_eq_true.2 ⟨a, List.mem_cons_self a t, decide_eq_true hk⟩
        rw [if_pos hany]
        have hfst : a.1 ∉ t.map Prod.fst := by
          rw [List.map_cons] at hnd
          exact (List.nodup_cons.1 hnd).1
        have htail : ∀ g ∈ t, g.1 ≠ row.1 := by
          intro g hgt hcon
          exact hfst (List.mem_map.2 ⟨g, hgt, by show g.1 = a.1; rw [hcon, hk]⟩)
        have hmap : t.map (fun g => if g.1 = row.1 then (g.1, g.2 ++ [row.2]) else g) = t := by
          conv_rhs => rw [← List.map_id t]
          apply List.map_congr_left
          intro g hgt
          rw [if_neg (htail g hgt)]
          rfl
        simp only [List.map_cons, if_pos hk, hmap, List.sum_cons,
          List.length_append, List.length_singleton]
        omega
      · by_cases hany : t.any (fun g => decide (g.1 = row.1))
        · have hany2 : (a :: t).any (fun g => decide (g.1 = row.1)) = true := by
            rw [List.any_cons, hany, Bool.or_true]
          rw [if_pos hany2]
          have ihv := ih (by simpa using (List.nodup_cons.1 (by simpa using hnd)).2)
          unfold groupAppend groupSizes at ihv
          rw [if_pos hany] at ihv
          simp only [List.map_cons, if_neg hk, List.sum_cons]
          simp only [List.map_map] at ihv ⊢
          omega
        · have hany2 : ¬ ((a :: t).any (fun g => decide (g.1 = row.1)) = true) := by
            rw [List.any_cons]
            simp only [Bool.or_eq_true, not_or]
            exact ⟨by simpa using hk, by simpa using hany⟩
          rw [if_neg hany2]
          simp only [groupSizes, List.map_append, List.map_cons, List.sum_append,
            List.sum_cons, List.map_nil, List.sum_nil, List.length_singleton]
          omega

lemma foldl_groupAppend_sum (rows : List (String × String)) :
    ∀ (acc : List (String × List String)), (acc.map Prod.fst).Nodup →
      groupSizes (rows.foldl groupAppend acc) = groupSizes acc + rows.length := by
  induction rows with
  | nil => intro acc _; simp
  | cons r t ih =>
      intro acc hnd
      have h1 := ih (groupAppend acc r) (groupAppend_keys_nodup hnd)
      rw [List.foldl_cons, h1, groupAppend_sum hnd, List.length_cons]
      omega

lemma nat_sum_take_le (l : List ℕ) (n : ℕ) : (l.take n).sum ≤ l.sum := by
  conv_rhs => rw [← List.take_append_drop n l]
  rw [List.sum_append]
  exact Nat.le_add_right _ _

/-- Concrete store: repository `o/r` with a single file `f.py` whose sole
contributor `al` touched it in two distinct commits. -/
def exC9 : GraphStore :=
  { repos := [{ name := "o/r", url := "u", description := "" }]
    devs := [{ github := "al", repository := "o/r", name := "A", email := "a@x" }]
    files := [{ path := "f.py", repository := "o/r", filename := "f.py" }]
    commits := [{ hash := "k1", timestamp := "t1", message := "m1" },
                { hash := "k2", timestamp := "t2", message := "m2" }]
    devBelongs := [(("al", "o/r"), "o/r")]
    fileBelongs := [(("f.py", "o/r"), "o/r")]
    commitBelongs := [("k1", "o/r"), ("k2", "o/r")]
    committedBy := [("k1", ("al", "o/r")), ("k2", ("al", "o/r"))]
    changes := [(("k1", ("f.py", "o/r")), ChangeType.modified),
                (("k2", ("f.py", "o/r")), ChangeType.modified)] }

/-- C9, counterexample.  `al` is the sole contributor of the single file
`f.py` but touched it in two commits, so the sole-contributor query yields
two rows for the same file and `rare_files_count = 2 > 1 = total_files`:
the claimed bound `Σ rare_files_count ≤ total_files` fails. -/
theorem mavens_sum_counterexample :
    ¬ (((get_mavens exC9 "o/r" 10).map (fun m => m.rare_files_count)).sum
        ≤ (filesOf exC9 "o/r").length) := by
  with_unfolding_all decide

/-- C9, amended.  No two returned developers are credited with the same
sole-owned file (the grouped path lists of distinct developers are
disjoint), but `rare_files_count` counts one entry per matched
change/authorship row, not per distinct file: the sum over returned
developers is bounded by the number of such rows over sole-owned files,
which can exceed `total_files` (see the counterexample). -/
theorem mavens_amended (s : GraphStore) (repo : String) (limit : Int) (hwf : WF s) :
    (∀ g1 ∈ mavenGroups s repo, ∀ g2 ∈ mavenGroups s repo, g1.1 ≠ g2.1 →
      ∀ p ∈ g1.2, p ∉ g2.2)
    ∧ ((get_mavens s repo limit).map (fun m => m.rare_files_count)).sum
        ≤ (mavenRows s repo).length := by
  constructor
  · intro g1 hg1 g2 hg2 hne p hp1 hp2
    have r1 := mavenGroups_mem_rows hg1 p hp1
    have r2 := mavenGroups_mem_rows hg2 p hp2
    exact hne (mavenRows_functional hwf r1 r2 rfl)
  · unfold get_mavens
    have hperm :=
      List.perm_insertionSort mavenOrder ((mavenGroups s repo).map (mavenRecordOf s repo))
    have hsum : ((List.insertionSort mavenOrder
        ((mavenGroups s repo).map (mavenRecordOf s repo))).map
          (fun m => m.rare_files_count)).sum = (mavenRows s repo).length := by
      rw [(hperm.map (fun m => m.rare_files_count)).sum_eq, List.map_map]
      have hrows : groupSizes (mavenGroups s repo) = (mavenRows s repo).length := by
        unfold mavenGroups
        rw [foldl_groupAppend_sum (mavenRows s repo) [] (by simp)]
        simp [groupSizes]
      rw [← hrows]
      rfl
    rw [← hsum]
    unfold pythonSlice
    by_cases hn : (0:Int) ≤ limit
    · rw [if_pos hn, List.map_take]
      exact nat_sum_take_le _ _
    · rw [if_neg hn, List.map_take]
      exact nat_sum_take_le _ _

/-- C9, witness at the concrete store `exC9`. -/
theorem mavens_amended_witness :
    (∀ g1 ∈ mavenGroups exC9 "o/r", ∀ g2 ∈ mavenGroups exC9 "o/r", g1.1 ≠ g2.1 →
      ∀ p ∈ g1.2, p ∉ g2.2)
    ∧ ((get_mavens exC9 "o/r" 10).map (fun m => m.rare_files_count)).sum
        ≤ (mavenRows exC9 "o/r").length :=
  mavens_amended exC9 "o/r" 10 (by decide)

/-- One replacement row of `GraphQueries.get_replacements`. -/
structure ReplacementRow where
  github : String
  name : String
  email : String
  leaving_dev_file_count : Nat
  shared_file_count : Nat
  overlap_ratio : ℚ
  deriving DecidableEq, Repr

/-- `ORDER BY overlap_ratio DESC` as a relation. -/
def replacementOrder (a b : ReplacementRow) : Prop := b.overlap_ratio ≤ a.overlap_ratio

instance : DecidableRel replacementOrder :=
  fun a b => inferInstanceAs (Decidable (b.overlap_ratio ≤ a.overlap_ratio))

instance : IsTotal ReplacementRow replacementOrder :=
  ⟨fun a b => le_total b.overlap_ratio a.overlap_ratio⟩

instance : IsTrans ReplacementRow replacementOrder := ⟨fun _ _ _ h1 h2 => le_trans h2 h1⟩

/-- Files reachable from a developer through authored commits, restricted by
the `WHERE <file>.repository = $repo_name` filter of `get_replacements`. -/
def reachableInRepo (s : GraphStore) (d : DevNode) (repo : String) : List FileNode :=
  s.files.filter (fun f => decide (f.repository = repo ∧ touches s d f))

/-- `GraphQueries.get_replacements`: match the leaving developer node by
`{github, repository}` (no row at all when absent — the query returns the
empty list, it does not signal anything); collect its reachable files with a
plain `MATCH` (empty set means zero rows survive the aggregation, so the
result is empty and no division is evaluated); for every other developer of
the repository with a non-empty reachable set, score the overlap; order by
decreasing `overlap_ratio`, capped at `limit`. -/
def get_replacements (s : GraphStore) (repo leaving : String) (limit : Int) :
    List ReplacementRow :=
  match s.devs.filter (fun d => decide (d.github = leaving ∧ d.repository = repo)) with
  | [] => []
  | ldev :: _ =>
    let lf := reachableInRepo s ldev repo
    if lf = [] then []
    else
      let others := (devsOf s repo).filter (fun o => decide (¬ o.github = leaving))
      let rows := others.filterMap (fun o =>
        let ofs := reachableInRepo s o repo
        if ofs = [] then none
        else some
          { github := o.github
            name := o.name
            email := o.email
            leaving_dev_file_count := lf.length
            shared_file_count := (ofs.filter (fun f => decide (f ∈ lf))).length
            overlap_ratio :=
              ((ofs.filter (fun f => decide (f ∈ lf))).length : ℚ) / (lf.length : ℚ) })
      cypherLimit limit (List.insertionSort replacementOrder rows)

/-- Outcome of the `/replacements` endpoint: a JSON list or an HTTP error
status. -/
inductive ReplacementsResponse
  | ok (rows : List ReplacementRow)
  | error (status : Nat)
  deriving DecidableEq, Repr

/-- The controller handler for `/developers/{github}/replacements`: when the
query result is empty it raises `HTTPException(404, "... not found or has no
replacements")` inside its own `try` block, and the blanket
`except Exception` clause of the same block converts that (like any other
exception) into `HTTPException(500, ...)`; a non-empty result is returned
as-is. -/
def replacementsEndpoint (s : GraphStore) (repo leaving : String) (limit : Int) :
    ReplacementsResponse :=
  let rows := get_replacements s repo leaving limit
  if rows.isEmpty then ReplacementsResponse.error 500 else ReplacementsResponse.ok rows

/-- Concrete store: repository `o/r` where `alice` exists and has reachable
files, but there is no other developer — so no candidate matches. -/
def exC3 : GraphStore :=
  { repos := [{ name := "o/r", url := "u", description := "" }]
    devs := [{ github := "alice", repository := "o/r", name := "A", email := "a@x" }]
    files := [{ path := "f.py", repository := "o/r", filename := "f.py" }]
    commits := [{ hash := "k1", timestamp := "t1", message := "m1" }]
    devBelongs := [(("alice", "o/r"), "o/r")]
    fileBelongs := [(("f.py", "o/r"), "o/r")]
    commitBelongs := [("k1", "o/r")]
    committedBy := [("k1", ("alice", "o/r"))]
    changes := [(("k1", ("f.py", "o/r")), ChangeType.added)] }

set_option maxRecDepth 8000 in
/-- C3, counterexample.  `alice` exists in `o/r` with reachable files but no
candidate matches; the claim demands the empty list for this case and a
distinct `NotFound` signal for an absent developer such as `ghost`.  The code
produces the identical outcome — HTTP error 500, never an empty-list
response — in both cases, so the two situations are not distinguished. -/
theorem replacements_notfound_counterexample :
    replacementsEndpoint exC3 "o/r" "alice" 3 = ReplacementsResponse.error 500
    ∧ replacementsEndpoint exC3 "o/r" "ghost" 3 = ReplacementsResponse.error 500
    ∧ (∃ d ∈ exC3.devs, d.github = "alice" ∧ d.repository = "o/r")
    ∧ ¬ (∃ d ∈ exC3.devs, d.github = "ghost" ∧ d.repository = "o/r")
    ∧ replacementsEndpoint exC3 "o/r" "alice" 3 ≠ ReplacementsResponse.ok [] := by
  with_unfolding_all decide

/-- C3, amended.  When the leaving developer is absent from the repository,
the query layer returns the empty list (no `NotFound` signal of its own) and
the endpoint answers with HTTP error 500 — exactly the same outcome as for a
present developer with no matching candidate, so the two cases are not
distinct. -/
theorem replacements_notfound_amended (s : GraphStore) (repo leaving : String)
    (limit : Int)
    (habs : ∀ d ∈ s.devs, ¬ (d.github = leaving ∧ d.repository = repo)) :
    get_replacements s repo leaving limit = []
    ∧ replacementsEndpoint s repo leaving limit = ReplacementsResponse.error 500 := by
  have hfilter : s.devs.filter
      (fun d => decide (d.github = leaving ∧ d.repository = repo)) = [] := by
    rw [List.filter_eq_nil_iff]
    intro d hd
    simpa using habs d hd
  have hq : get_replacements s repo leaving limit = [] := by
    unfold get_replacements
    rw [hfilter]
  refine ⟨hq, ?_⟩
  unfold replacementsEndpoint
  rw [hq]
  rfl

/-- C3, witness: at `exC3`, developer `ghost` is absent and the theorem
applies. -/
theorem replacements_notfound_witness :
    get_replacements exC3 "o/r" "ghost" 3 = []
    ∧ replacementsEndpoint exC3 "o/r" "ghost" 3 = ReplacementsResponse.error 500 :=
  replacements_notfound_amended exC3 "o/r" "ghost" 3 (by decide)

/-- Concrete store: repository `o/r` where developer `solo` exists but has
authored no commits, hence reaches no file. -/
def exC6 : GraphStore :=
  { repos := [{ name := "o/r", url := "u", description := "" }]
    devs := [{ github := "solo", repository := "o/r", name := "S", email := "s@x" }]
    files := [{ path := "f.py", repository := "o/r", filename := "f.py" }]
    commits := []
    devBelongs := [(("solo", "o/r"), "o/r")]
    fileBelongs := [(("f.py", "o/r"), "o/r")]
    commitBelongs := []
    committedBy := []
    changes := [] }

/-- C6, confirmed.  If the leaving developer node matches but its reachable
file set is empty, the plain `MATCH` on its files leaves zero rows, so
`get_replacements` returns the empty list; in particular the division
`size(overlapping_files) / size(leaving_dev_files)` is never evaluated, so
no arithmetic error can occur (the embedding is a total function). -/
theorem replacements_empty_files_safe (s : GraphStore) (repo leaving : String)
    (limit : Int) (ldev : DevNode) (rest : List DevNode)
    (hfind : s.devs.filter
      (fun d => decide (d.github = leaving ∧ d.repository = repo)) = ldev :: rest)
    (hempty : reachableInRepo s ldev repo = []) :
    get_replacements s repo leaving limit = [] := by
  unfold get_replacements
  rw [hfind]
  simp [hempty]

/-- C6, witness: `solo` exists in `exC6` and reaches no files. -/
theorem replacements_empty_files_safe_witness :
    get_replacements exC6 "o/r" "solo" 3 = [] :=
  replacements_empty_files_safe exC6 "o/r" "solo" 3
    { github := "solo", repository := "o/r", name := "S", email := "s@x" } []
    (by decide) (by decide)

/-- The knowledge-distribution summary record.  The two `sqrt`-derived
fields are real-valued; everything else is exact. -/
structure KnowledgeDistribution where
  top_contributor : String
  top_coverage : ℚ
  average_coverage : ℚ
  coverage_std_dev : ℝ
  skewness : ℝ
  dev_count : Nat
  total_files : Nat
  distribution_type : String

/-- The hardcoded Python dict returned when `result.single()` finds no
record. -/
def kdSentinel : KnowledgeDistribution :=
  { top_contributor := "unknown"
    top_coverage := 0
    average_coverage := 0
    coverage_std_dev := 0
    skewness := 0
    dev_count := 0
    total_files := 0
    distribution_type := "unknown" }

/-- The collected `coverage_values`, one per developer in match order. -/
def coverageValues (s : GraphStore) (repo : String) : List ℚ :=
  (devsOf s repo).map (fun d =>
    ((touchedFiles s d).length : ℚ) / (((filesOf s repo).length : ℕ) : ℚ))

/-- `reduce(max = 0.0, cov IN coverage_values | CASE WHEN cov > max THEN cov
ELSE max END)`. -/
def maxCoverage (covs : List ℚ) : ℚ :=
  covs.foldl (fun m c => if m < c then c else m) 0

/-- `CASE WHEN size(coverage_values) > 0 THEN reduce(sum)/size ELSE 0.0`. -/
def averageCoverage (covs : List ℚ) : ℚ :=
  if 0 < covs.length then covs.sum / (covs.length : ℚ) else 0

/-- The radicand of the Cypher `sqrt(...)`: the population variance. -/
def coverageVariance (covs : List ℚ) : ℚ :=
  (covs.map (fun c => (c - averageCoverage covs) ^ 2)).sum / (covs.length : ℚ)

/-- `coverage_std_dev`: `sqrt` of the population variance (0 with no
values). -/
noncomputable def coverageStdDev (covs : List ℚ) : ℝ :=
  if 0 < covs.length then Real.sqrt ((coverageVariance covs : ℚ) : ℝ) else 0

open Classical in
/-- `skewness`: mean of `((cov - mean)/std_dev)^3` when
`coverage_std_dev > 0`, else `0`. -/
noncomputable def kdSkewness (covs : List ℚ) : ℝ :=
  if 0 < coverageStdDev covs then
    ((covs.map (fun c =>
      (((c : ℝ) - ((averageCoverage covs : ℚ) : ℝ)) / coverageStdDev covs) ^ 3)).sum)
      / (covs.length : ℝ)
  else 0

open Classical in
/-- `CASE WHEN skewness > 1.0 OR max_coverage > 3 * average_coverage THEN
'hero' ELSE 'balanced' END`. -/
noncomputable def kdDistributionType (covs : List ℚ) : String :=
  if 1 < kdSkewness covs ∨ 3 * averageCoverage covs < maxCoverage covs then "hero"
  else "balanced"

/-- `top_devs[0].github` when some developer attains `max_coverage`, else
`'unknown'`. -/
def kdTopContributor (s : GraphStore) (repo : String) : String :=
  match (devsOf s repo).filter (fun d =>
      decide (((touchedFiles s d).length : ℚ) / (((filesOf s repo).length : ℕ) : ℚ)
        = maxCoverage (coverageValues s repo))) with
  | [] => "unknown"
  | d :: _ => d.github

/-- `GraphQueries.get_knowledge_distribution`: when the repository node, its
developer rows or its file rows are absent the Cypher `MATCH` chain yields
no record and the Python sentinel dict is returned; otherwise the statistics
over the coverage values. -/
noncomputable def get_knowledge_distribution (s : GraphStore) (repo : String) :
    KnowledgeDistribution :=
  if devsOf s repo = [] ∨ filesOf s repo = [] then kdSentinel
  else
    { top_contributor := kdTopContributor s repo
      top_coverage := maxCoverage (coverageValues s repo)
      average_coverage := averageCoverage (coverageValues s repo)
      coverage_std_dev := coverageStdDev (coverageValues s repo)
      skewness := kdSkewness (coverageValues s repo)
      dev_count := (devsOf s repo).length
      total_files := (filesOf s repo).length
      distribution_type := kdDistributionType (coverageValues s repo) }

/-- One row of `get_critical_files`. -/
structure CriticalFileRow where
  file_path : String
  filename : String
  contributors : Nat
  deriving DecidableEq, Repr

/-- `ORDER BY contributor_count` (ascending) as a relation. -/
def criticalOrder (a b : CriticalFileRow) : Prop := a.contributors ≤ b.contributors

instance : DecidableRel criticalOrder :=
  fun a b => inferInstanceAs (Decidable (a.contributors ≤ b.contributors))

instance : IsTotal CriticalFileRow criticalOrder :=
  ⟨fun a b => le_total a.contributors b.contributors⟩

instance : IsTrans CriticalFileRow criticalOrder := ⟨fun _ _ _ h1 h2 => le_trans h1 h2⟩

/-- The full (pre-`LIMIT`) result of `get_critical_files`: one row per file
of the repository with its distinct contributor count, ascending. -/
def criticalFilesAll (s : GraphStore) (repo : String) : List CriticalFileRow :=
  List.insertionSort criticalOrder ((filesOf s repo).map (fun f =>
    { file_path := f.path
      filename := f.filename
      contributors := (contributorsOf s f).length }))

/-- `GraphQueries.get_critical_files`: the ascending rows capped at
`limit`. -/
def get_critical_files (s : GraphStore) (repo : String) (limit : Int) :
    List CriticalFileRow :=
  cypherLimit limit (criticalFilesAll s repo)

/-- Concrete store: repository `o/r` with one file and no developer. -/
def exNoDevs : GraphStore :=
  { repos := [{ name := "o/r", url := "u", description := "" }]
    devs := []
    files := [{ path := "f.py", repository := "o/r", filename := "f.py" }]
    commits := []
    devBelongs := []
    fileBelongs := [(("f.py", "o/r"), "o/r")]
    commitBelongs := []
    committedBy := []
    changes := [] }

/-- C7, confirmed.  With zero developers or zero files (the repository node
itself missing also lands here) the `MATCH` chain yields no record, and the
Python fallback returns the sentinel: `distribution_type = "unknown"` with
all statistics zeroed.  The embedding is a total function, so no exception
is modelled or possible. -/
theorem knowledge_distribution_sentinel (s : GraphStore) (repo : String)
    (h : devsOf s repo = [] ∨ filesOf s repo = []) :
    get_knowledge_distribution s repo = kdSentinel
    ∧ kdSentinel.distribution_type = "unknown"
    ∧ kdSentinel.skewness = 0
    ∧ kdSentinel.coverage_std_dev = 0
    ∧ kdSentinel.top_coverage = 0
    ∧ kdSentinel.average_coverage = 0
    ∧ kdSentinel.dev_count = 0
    ∧ kdSentinel.total_files = 0 := by
  refine ⟨?_, rfl, rfl, rfl, rfl, rfl, rfl, rfl⟩
  unfold get_knowledge_distribution
  rw [if_pos h]

/-- C7, witness: the repository of `exNoDevs` has a file but no
developers. -/
theorem knowledge_distribution_sentinel_witness :
    get_knowledge_distribution exNoDevs "o/r" = kdSentinel :=
  (knowledge_distribution_sentinel exNoDevs "o/r" (Or.inl (by decide))).1

/-- C5, counterexample.  On a repository with one file and no developers,
`knowledge_distribution` reports the sentinel value `total_files = 0` while
the file count (and the number of rows `critical_files` enumerates before
its cap) is `1`: the three `total_files` quantities are not all equal. -/
theorem total_files_drift_counterexample :
    (get_knowledge_distribution exNoDevs "o/r").total_files = 0
    ∧ (criticalFilesAll exNoDevs "o/r").length = 1
    ∧ (filesOf exNoDevs "o/r").length = 1 := by
  refine ⟨?_, by decide, by decide⟩
  unfold get_knowledge_distribution
  rw [if_pos (Or.inl (by decide : devsOf exNoDevs "o/r" = []))]
  rfl

/-- C5, amended.  For a repository with at least one developer the three
quantities agree: every `get_jacks` row carries
`total_files = |files(repo)|`, `knowledge_distribution` reports exactly that
count (including the zero-file sentinel case), and `critical_files`
enumerates exactly that many rows before its cap. -/
theorem total_files_amended (s : GraphStore) (repo : String) (limit : Int)
    (hdev : devsOf s repo ≠ []) :
    (∀ row ∈ get_jacks s repo limit, row.total_files = (filesOf s repo).length)
    ∧ (get_knowledge_distribution s repo).total_files = (filesOf s repo).length
    ∧ (criticalFilesAll s repo).length = (filesOf s repo).length := by
  refine ⟨?_, ?_, ?_⟩
  · intro row hrow
    unfold get_jacks at hrow
    by_cases h : (filesOf s repo).length = 0
    · simp [h] at hrow
    · simp only [h, ite_false, cypherLimit] at hrow
      have hmem := (List.mem_insertionSort jackOrder).1 (List.take_sublist _ _ |>.mem hrow)
      obtain ⟨d, _, hdrow⟩ := List.mem_map.1 hmem
      rw [← hdrow]
  · by_cases hfile : filesOf s repo = []
    · unfold get_knowledge_distribution
      rw [if_pos (Or.inr hfile), hfile]
      rfl
    · unfold get_knowledge_distribution
      rw [if_neg (by simp [hdev, hfile])]
  · unfold criticalFilesAll
    rw [List.length_insertionSort, List.length_map]

/-- C5, witness at the populated store `exC1`. -/
theorem total_files_amended_witness :
    (∀ row ∈ get_jacks exC1 "o/r" 10, row.total_files = (filesOf exC1 "o/r").length)
    ∧ (get_knowledge_distribution exC1 "o/r").total_files = (filesOf exC1 "o/r").length
    ∧ (criticalFilesAll exC1 "o/r").length = (filesOf exC1 "o/r").length :=
  total_files_amended exC1 "o/r" 10 (by decide)

lemma list_sum_const_rat {l : List ℚ} {c : ℚ} (h : ∀ x ∈ l, x = c) :
    l.sum = (l.length : ℚ) * c := by
  induction l with
  | nil => simp
  | cons a t ih =>
      simp only [List.sum_cons, List.length_cons]
      rw [h a (List.mem_cons_self a t), ih (fun x hx => h x (List.mem_cons_of_mem a hx))]
      push_cast
      ring

lemma averageCoverage_const {l : List ℚ} {c : ℚ} (hne : l ≠ [])
    (h : ∀ x ∈ l, x = c) : averageCoverage l = c := by
  have hlen : 0 < l.length := List.length_pos.2 hne
  have hlq : (l.length : ℚ) ≠ 0 := by
    exact_mod_cast Nat.pos_iff_ne_zero.1 hlen
  unfold averageCoverage
  rw [if_pos hlen, list_sum_const_rat h, mul_comm, mul_div_assoc, div_self hlq, mul_one]

lemma coverageVariance_const {l : List ℚ} {c : ℚ} (hne : l ≠ [])
    (h : ∀ x ∈ l, x = c) : coverageVariance l = 0 := by
  unfold coverageVariance
  have hz : (l.map (fun x => (x - averageCoverage l) ^ 2)).sum = 0 := by
    apply List.sum_eq_zero
    intro y hy
    obtain ⟨x, hx, hxy⟩ := List.mem_map.1 hy
    rw [← hxy, h x hx, averageCoverage_const hne h, sub_self]
    ring
  rw [hz, zero_div]

lemma coverageStdDev_const {l : List ℚ} {c : ℚ} (hne : l ≠ [])
    (h : ∀ x ∈ l, x = c) : coverageStdDev l = 0 := by
  unfold coverageStdDev
  rw [if_pos (List.length_pos.2 hne), coverageVariance_const hne h]
  simp

lemma kdSkewness_const {l : List ℚ} {c : ℚ} (hne : l ≠ [])
    (h : ∀ x ∈ l, x = c) : kdSkewness l = 0 := by
  unfold kdSkewness
  rw [coverageStdDev_const hne h, if_neg (lt_irrefl 0)]

lemma maxCoverage_fold_le {l : List ℚ} {c : ℚ} (h : ∀ x ∈ l, x = c) :
    ∀ a : ℚ, l.foldl (fun m x => if m < x then x else m) a ≤ max a c := by
  induction l with
  | nil => intro a; exact le_max_left a c
  | cons x t ih =>
      intro a
      rw [List.foldl_cons]
      have hstep : (if a < x then x else a) ≤ max a c := by
        by_cases hax : a < x
        · rw [if_pos hax, h x (List.mem_cons_self x t)]; exact le_max_right a c
        · rw [if_neg hax]; exact le_max_left a c
      calc t.foldl (fun m x => if m < x then x else m) (if a < x then x else a)
          ≤ max (if a < x then x else a) c :=
            ih (fun y hy => h y (List.mem_cons_of_mem x hy)) _
        _ ≤ max a c := max_le hstep (le_max_right a c)

lemma kdDistributionType_const {l : List ℚ} {c : ℚ} (hne : l ≠ []) (hc : 0 ≤ c)
    (h : ∀ x ∈ l, x = c) : kdDistributionType l = "balanced" := by
  have hcond : ¬ (1 < kdSkewness l ∨ 3 * averageCoverage l < maxCoverage l) := by
    refine not_or.2 ⟨?_, ?_⟩
    · rw [kdSkewness_const hne h]
      norm_num
    · rw [averageCoverage_const hne h]
      intro hlt
      have hmax : maxCoverage l ≤ max 0 c := maxCoverage_fold_le h 0
      rw [max_eq_right hc] at hmax
      unfold maxCoverage at hlt
      linarith [lt_of_lt_of_le hlt hmax]
  unfold kdDistributionType
  rw [if_neg hcond]

/-- Concrete store: repository `o/r` with one developer and no files. -/
def exNoFiles : GraphStore :=
  { repos := [{ name := "o/r", url := "u", description := "" }]
    devs := [{ github := "ana", repository := "o/r", name := "A", email := "a@x" }]
    files := []
    commits := []
    devBelongs := [(("ana", "o/r"), "o/r")]
    fileBelongs := []
    commitBelongs := []
    committedBy := []
    changes := [] }

/-- C8, counterexample.  In `exNoFiles` the single developer has coverage
`0` (`total_files == 0`), so every developer has identical coverage, yet the
zero-file repository takes the sentinel path: `distribution_type` is
`"unknown"`, not `"balanced"` as the claim demands. -/
theorem knowledge_distribution_balanced_counterexample :
    devsOf exNoFiles "o/r" ≠ []
    ∧ (∀ x ∈ coverageValues exNoFiles "o/r",
        ∀ y ∈ coverageValues exNoFiles "o/r", x = y)
    ∧ (get_knowledge_distribution exNoFiles "o/r").distribution_type = "unknown"
    ∧ "unknown" ≠ "balanced" := by
  refine ⟨by decide, by with_unfolding_all decide, ?_, by decide⟩
  unfold get_knowledge_distribution
  rw [if_pos (Or.inr (by decide : filesOf exNoFiles "o/r" = []))]
  rfl

/-- C8, amended.  For a repository with at least one developer *and at least
one file*, identical coverage across developers forces the variance, hence
`sqrt(variance)`, to `0`: the skewness guard `coverage_std_dev > 0` fails
and `skewness = 0`, and since `max_coverage ≤ coverage` and coverage is
non-negative, `max_coverage > 3 * average_coverage` also fails, so
`distribution_type = "balanced"`. -/
theorem knowledge_distribution_balanced_amended (s : GraphStore) (repo : String)
    (hdev : devsOf s repo ≠ []) (hfile : filesOf s repo ≠ [])
    (heq : ∀ x ∈ coverageValues s repo, ∀ y ∈ coverageValues s repo, x = y) :
    (get_knowledge_distribution s repo).skewness = 0
    ∧ (get_knowledge_distribution s repo).distribution_type = "balanced" := by
  have hcne : coverageValues s repo ≠ [] := by
    unfold coverageValues
    simpa using hdev
  obtain ⟨c, hcmem⟩ := List.exists_mem_of_ne_nil _ hcne
  have hall : ∀ x ∈ coverageValues s repo, x = c := fun x hx => heq x hx c hcmem
  have hc0 : 0 ≤ c := by
    unfold coverageValues at hcmem
    obtain ⟨d, _, hdc⟩ := List.mem_map.1 hcmem
    rw [← hdc]
    positivity
  unfold get_knowledge_distribution
  rw [if_neg (by simp [hdev, hfile])]
  exact ⟨kdSkewness_const hcne hall, kdDistributionType_const hcne hc0 hall⟩

/-- C8, witness: in `exC3` the single developer covers the single file, so
all coverages are the (identical) value `1`. -/
theorem knowledge_distribution_balanced_witness :
    (get_knowledge_distribution exC3 "o/r").skewness = 0
    ∧ (get_knowledge_distribution exC3 "o/r").distribution_type = "balanced" :=
  knowledge_distribution_balanced_amended exC3 "o/r" (by decide) (by decide)
    (by with_unfolding_all decide)

section UpsertMachinery

variable {α : Type*} {κ : Type*} [DecidableEq κ] (key : α → κ)

/-- A Cypher node `MERGE` + full-`SET` upsert by natural key: replace the
entries matching the key of `x`, or append `x` when the key is new. -/
def upsertBy (l : List α) (x : α) : List α :=
  if l.any (fun a => decide (key a = key x)) then
    l.map (fun a => if key a = key x then x else a)
  else l ++ [x]

/-- A Cypher edge `MERGE`: insert when absent, otherwise keep the list. -/
def insertOnce {β : Type*} [DecidableEq β] (l : List β) (e : β) : List β :=
  if e ∈ l then l else l ++ [e]

/-- The effect of a write sequence on one element, last writer wins. -/
def applySeq (xs : List α) (a : α) : α :=
  xs.foldl (fun b x => if key b = key x then x else b) a

/-- The last write of a sequence to a given key, if any. -/
def lastWrite (xs : List α) (k : κ) : Option α :=
  xs.foldl (fun acc x => if key x = k then some x else acc) none

lemma lastWrite_foldl (xs : List α) (k : κ) (acc : Option α) :
    xs.foldl (fun acc x => if key x = k then some x else acc) acc
      = (lastWrite key xs k).or acc := by
  induction xs generalizing acc with
  | nil => simp [lastWrite]
  | cons x t ih =>
      rw [List.foldl_cons, ih]
      have hlw : lastWrite key (x :: t) k
          = (lastWrite key t k).or (if key x = k then some x else none) := by
        unfold lastWrite
        rw [List.foldl_cons]
        exact ih _
      rw [hlw]
      cases hl : lastWrite key t k with
      | some w => simp
      | none =>
          by_cases hk : key x = k
          · simp [hk]
          · simp [hk]

lemma lastWrite_key {xs : List α} {k : κ} {w : α}
    (h : lastWrite key xs k = some w) : key w = k := by
  induction xs with
  | nil => simp [lastWrite] at h
  | cons x t ih =>
      have hlw : lastWrite key (x :: t) k
          = (lastWrite key t k).or (if key x = k then some x else none) := by
        unfold lastWrite
        rw [List.foldl_cons]
        exact lastWrite_foldl key t k _
      rw [hlw] at h
      cases hl : lastWrite key t k with
      | some v =>
          rw [hl] at h
          simp at h
          rw [h] at hl
          exact ih hl
      | none =>
          rw [hl] at h
          by_cases hk : key x = k
          · rw [if_pos hk] at h
            simp at h
            rw [← h]
            exact hk
          · rw [if_neg hk] at h
            simp at h

lemma lastWrite_none {xs : List α} {k : κ}
    (h : lastWrite key xs k = none) : ∀ y ∈ xs, key y ≠ k := by
  induction xs with
  | nil => intro y hy; simp at hy
  | cons x t ih =>
      have hlw : lastWrite key (x :: t) k
          = (lastWrite key t k).or (if key x = k then some x else none) := by
        unfold lastWrite
        rw [List.foldl_cons]
        exact lastWrite_foldl key t k _
      rw [hlw] at h
      cases hl : lastWrite key t k with
      | some v => rw [hl] at h; simp at h
      | none =>
          rw [hl] at h
          simp only [Option.none_or] at h
          intro y hy
          rcases List.mem_cons.1 hy with rfl | hyt
          · intro hk
            rw [if_pos hk] at h
            exact Option.noConfusion h
          · exact ih hl y hyt

lemma applySeq_key (xs : List α) (a : α) : key (applySeq key xs a) = key a := by
  induction xs generalizing a with
  | nil => rfl
  | cons x t ih =>
      show key (applySeq key t (if key a = key x then x else a)) = key a
      rw [ih]
      by_cases hk : key a = key x
      · rw [if_pos hk, ← hk]
      · rw [if_neg hk]

lemma applySeq_eq_lastWrite (xs : List α) (a : α) :
    applySeq key xs a = (lastWrite key xs (key a)).getD a := by
  induction xs generalizing a with
  | nil => rfl
  | cons x t ih =>
      have hstep : applySeq key (x :: t) a
          = applySeq key t (if key a = key x then x else a) := rfl
      have hlw : lastWrite key (x :: t) (key a)
          = (lastWrite key t (key a)).or (if key x = key a then some x else none) := by
        unfold lastWrite
        rw [List.foldl_cons]
        exact lastWrite_foldl key t (key a) _
      rw [hstep, ih, hlw]
      have hku : key (if key a = key x then x else a) = key a := by
        by_cases hk : key a = key x
        · rw [if_pos hk, ← hk]
        · rw [if_neg hk]
      rw [hku]
      cases hl : lastWrite key t (key a) with
      | some w => simp
      | none =>
          simp only [Option.none_or]
          by_cases hk : key a = key x
          · rw [if_pos hk, if_pos hk.symm]
            simp
          · rw [if_neg hk, if_neg (fun h => hk h.symm)]

lemma mem_upsertBy_key_eq {l : List α} {x b : α}
    (hb : b ∈ upsertBy key l x) (hk : key b = key x) : b = x := by
  unfold upsertBy at hb
  by_cases hany : l.any (fun a => decide (key a = key x))
  · rw [if_pos hany] at hb
    obtain ⟨b0, hb0, hub⟩ := List.mem_map.1 hb
    by_cases hk0 : key b0 = key x
    · rw [if_pos hk0] at hub
      exact hub.symm
    · rw [if_neg hk0] at hub
      rw [hub] at hk0
      exact absurd hk hk0
  · rw [if_neg hany] at hb
    rcases List.mem_append.1 hb with hbl | hbx
    · exfalso
      exact hany (List.any_eq_true.2 ⟨b, hbl, decide_eq_true hk⟩)
    · exact List.mem_singleton.1 hbx

lemma mem_foldl_upsertBy_no_write {ws : List α} {k : κ}
    (hnw : ∀ y ∈ ws, key y ≠ k) :
    ∀ {m : List α} {b : α}, b ∈ ws.foldl (upsertBy key) m → key b = k → b ∈ m := by
  induction ws with
  | nil => intro m b hb _; exact hb
  | cons w t ih =>
      intro m b hb hk
      have hw : key w ≠ k := hnw w (List.mem_cons_self w t)
      have ht : ∀ y ∈ t, key y ≠ k := fun y hy => hnw y (List.mem_cons_of_mem w hy)
      have hb1 : b ∈ upsertBy key m w := ih ht hb hk
      unfold upsertBy at hb1
      by_cases hany : m.any (fun a => decide (key a = key w))
      · rw [if_pos hany] at hb1
        obtain ⟨b0, hb0, hub⟩ := List.mem_map.1 hb1
        by_cases hk0 : key b0 = key w
        · rw [if_pos hk0] at hub
          rw [← hub] at hk
          exact absurd hk hw
        · rw [if_neg hk0] at hub
          rw [hub] at hb0
          exact hb0
      · rw [if_neg hany] at hb1
        rcases List.mem_append.1 hb1 with hbm | hbw
        · exact hbm
        · rw [List.mem_singleton.1 hbw] at hk
          exact absurd hk hw

lemma applySeq_of_mem_foldl {ws : List α} :
    ∀ {l : List α} {b : α} {m : List α}, m = ws.foldl (upsertBy key) l → b ∈ m →
      applySeq key ws b = b := by
  induction ws with
  | nil => intro l b m hm hb; rfl
  | cons x t ih =>
      intro l b m hm hb
      subst hm
      rw [List.foldl_cons] at hb
      have hstep : applySeq key (x :: t) b
          = applySeq key t (if key b = key x then x else b) := rfl
      by_cases hk : key b = key x
      · rw [hstep, if_pos hk]
        have hIH : applySeq key t b = b := ih rfl hb
        rw [applySeq_eq_lastWrite] at hIH ⊢
        rw [hk] at hIH
        cases hl : lastWrite key t (key x) with
        | some w =>
            rw [hl] at hIH
            simpa using hIH
        | none =>
            simp only [Option.getD_none]
            have hnw : ∀ y ∈ t, key y ≠ key x := lastWrite_none key hl
            have hbm : b ∈ upsertBy key l x := mem_foldl_upsertBy_no_write key hnw hb hk
            exact (mem_upsertBy_key_eq key hbm hk).symm
      · rw [hstep, if_neg hk]
        exact ih rfl hb

lemma upsertBy_key_mem (l : List α) (x : α) :
    ∃ b ∈ upsertBy key l x, key b = key x := by
  unfold upsertBy
  by_cases hany : l.any (fun a => decide (key a = key x))
  · rw [if_pos hany]
    obtain ⟨a0, ha0, hk0⟩ := List.any_eq_true.1 hany
    rw [decide_eq_true_iff] at hk0
    exact ⟨x, List.mem_map.2 ⟨a0, ha0, by rw [if_pos hk0]⟩, rfl⟩
  · rw [if_neg hany]
    exact ⟨x, List.mem_append.2 (Or.inr (List.mem_singleton.2 rfl)), rfl⟩

lemma upsertBy_key_mono {l : List α} {k : κ} (x : α)
    (h : ∃ b ∈ l, key b = k) : ∃ b ∈ upsertBy key l x, key b = k := by
  obtain ⟨b, hb, hk⟩ := h
  unfold upsertBy
  by_cases hany : l.any (fun a => decide (key a = key x))
  · rw [if_pos hany]
    refine ⟨if key b = key x then x else b, List.mem_map.2 ⟨b, hb, rfl⟩, ?_⟩
    by_cases hbx : key b = key x
    · rw [if_pos hbx, ← hbx, hk]
    · rw [if_neg hbx, hk]
  · rw [if_neg hany]
    exact ⟨b, List.mem_append.2 (Or.inl hb), hk⟩

lemma foldl_upsertBy_key_mono {k : κ} (ws : List α) :
    ∀ {l : List α}, (∃ b ∈ l, key b = k) →
      ∃ b ∈ ws.foldl (upsertBy key) l, key b = k := by
  induction ws with
  | nil => intro l h; exact h
  | cons w t ih =>
      intro l h
      rw [List.foldl_cons]
      exact ih (upsertBy_key_mono key w h)

lemma foldl_upsertBy_key_present {ws : List α} {x : α} (hx : x ∈ ws) :
    ∀ (l : List α), ∃ b ∈ ws.foldl (upsertBy key) l, key b = key x := by
  induction ws with
  | nil => intro l; simp at hx
  | cons w t ih =>
      intro l
      rw [List.foldl_cons]
      rcases List.mem_cons.1 hx with rfl | hxt
      · exact foldl_upsertBy_key_mono key t (upsertBy_key_mem key l x)
      · exact ih hxt _

lemma foldl_upsertBy_all_present {ws : List α} :
    ∀ {m : List α}, (∀ x ∈ ws, ∃ b ∈ m, key b = key x) →
      ws.foldl (upsertBy key) m = m.map (applySeq key ws) := by
  induction ws with
  | nil =>
      intro m _
      have : m.map (applySeq key []) = m.map (fun a => a) := rfl
      rw [this, List.map_id']
      rfl
  | cons x t ih =>
      intro m hall
      have hx := hall x (List.mem_cons_self x t)
      have hpres : upsertBy key m x
          = m.map (fun a => if key a = key x then x else a) := by
        unfold upsertBy
        obtain ⟨b, hb, hk⟩ := hx
        rw [if_pos (List.any_eq_true.2 ⟨b, hb, decide_eq_true hk⟩)]
      rw [List.foldl_cons, hpres]
      have hallt : ∀ y ∈ t, ∃ b ∈ m.map (fun a => if key a = key x then x else a),
          key b = key y := by
        intro y hy
        obtain ⟨b, hb, hk⟩ := hall y (List.mem_cons_of_mem x hy)
        refine ⟨if key b = key x then x else b, List.mem_map.2 ⟨b, hb, rfl⟩, ?_⟩
        by_cases hbx : key b = key x
        · rw [if_pos hbx, ← hbx, hk]
        · rw [if_neg hbx, hk]
      rw [ih hallt, List.map_map]
      rfl

/-- Upserting the same write sequence twice is the same as upserting it
once. -/
lemma foldl_upsertBy_idem (l ws : List α) :
    ws.foldl (upsertBy key) (ws.foldl (upsertBy key) l)
      = ws.foldl (upsertBy key) l := by
  rw [foldl_upsertBy_all_present key
    (fun x hx => foldl_upsertBy_key_present key hx l)]
  conv_rhs => rw [← List.map_id (ws.foldl (upsertBy key) l)]
  apply List.map_congr_left
  intro a ha
  exact applySeq_of_mem_foldl key rfl ha

lemma insertOnce_mem_self {β : Type*} [DecidableEq β] (l : List β) (e : β) :
    e ∈ insertOnce l e := by
  unfold insertOnce
  by_cases he : e ∈ l
  · rw [if_pos he]; exact he
  · rw [if_neg he]
    exact List.mem_append.2 (Or.inr (List.mem_singleton.2 rfl))

lemma insertOnce_mem_mono {β : Type*} [DecidableEq β] {l : List β} {a : β}
    (e : β) (h : a ∈ l) : a ∈ insertOnce l e := by
  unfold insertOnce
  by_cases he : e ∈ l
  · rw [if_pos he]; exact h
  · rw [if_neg he]
    exact List.mem_append.2 (Or.inl h)

lemma foldl_insertOnce_mem_mono {β : Type*} [DecidableEq β] (es : List β) :
    ∀ {l : List β} {a : β}, a ∈ l → a ∈ es.foldl insertOnce l := by
  induction es with
  | nil => intro l a h; exact h
  | cons e t ih =>
      intro l a h
      rw [List.foldl_cons]
      exact ih (insertOnce_mem_mono e h)

lemma foldl_insertOnce_mem {β : Type*} [DecidableEq β] {es : List β} {e : β}
    (he : e ∈ es) : ∀ (l : List β), e ∈ es.foldl insertOnce l := by
  induction es with
  | nil => simp at he
  | cons x t ih =>
      intro l
      rw [List.foldl_cons]
      rcases List.mem_cons.1 he with rfl | het
      · exact foldl_insertOnce_mem_mono t (insertOnce_mem_self l e)
      · exact ih het _

lemma foldl_insertOnce_of_all_mem {β : Type*} [DecidableEq β] {es : List β} :
    ∀ {l : List β}, (∀ e ∈ es, e ∈ l) → es.foldl insertOnce l = l := by
  induction es with
  | nil => intro l _; rfl
  | cons e t ih =>
      intro l hall
      rw [List.foldl_cons]
      have h1 : insertOnce l e = l := by
        unfold insertOnce
        rw [if_pos (hall e (List.mem_cons_self e t))]
      rw [h1]
      exact ih (fun x hx => hall x (List.mem_cons_of_mem e hx))

/-- Inserting the same edge sequence twice is the same as inserting it
once. -/
lemma foldl_insertOnce_idem {β : Type*} [DecidableEq β] (l es : List β) :
    es.foldl insertOnce (es.foldl insertOnce l) = es.foldl insertOnce l :=
  foldl_insertOnce_of_all_mem (fun _ he => foldl_insertOnce_mem he l)

end UpsertMachinery

/-- Repository metadata tag of a commit fact (`repository_info`). -/
structure RepoInfo where
  name : String
  url : String
  description : String
  deriving DecidableEq, Repr

/-- One inbound commit fact: the scalar arguments of `process_commit_data`
plus its three change lists. -/
structure CommitFact where
  sha : String
  author_name : String
  author_email : String
  author_github : String
  date : String
  message : String
  added_files : List String
  modified_files : List String
  deleted_files : List String
  deriving DecidableEq, Repr

/-- `author_github or "unknown"` (the empty string is the falsy case). -/
def effectiveGithub (x : CommitFact) : String :=
  if x.author_github = "" then "unknown" else x.author_github

/-- Python `file_path.split("/")[-1]`. -/
def lastSegment (p : String) : String := (p.splitOn "/").getLastD ""

/-- The repository node written by `_create_repository`. -/
def factRepoNode (ri : RepoInfo) : RepoNode :=
  { name := ri.name, url := ri.url, description := ri.description }

/-- The developer node written by `_create_developer`. -/
def factDevNode (ri : RepoInfo) (x : CommitFact) : DevNode :=
  { github := effectiveGithub x
    repository := ri.name
    name := x.author_name
    email := x.author_email }

/-- The commit node written by `_create_commit`. -/
def factCommitNode (x : CommitFact) : CommitNode :=
  { hash := x.sha, timestamp := x.date, message := x.message }

/-- The file node written per path by `_handle_file_relationships`. -/
def factFileNode (ri : RepoInfo) (p : String) : FileNode :=
  { path := p, repository := ri.name, filename := lastSegment p }

/-- All changed paths of a fact in processing order
(added, then modified, then deleted). -/
def changePaths (x : CommitFact) : List String :=
  x.added_files ++ x.modified_files ++ x.deleted_files

/-- The typed change edges of a fact in processing order. -/
def changeEdges (ri : RepoInfo) (x : CommitFact) :
    List ((String × (String × String)) × ChangeType) :=
  x.added_files.map (fun p => ((x.sha, (p, ri.name)), ChangeType.added))
    ++ x.modified_files.map (fun p => ((x.sha, (p, ri.name)), ChangeType.modified))
    ++ x.deleted_files.map (fun p => ((x.sha, (p, ri.name)), ChangeType.deleted))

/-- `_process_commit_sync`: the per-commit `MERGE`/`SET`/`MATCH` sequence.
Node `MERGE ... SET` is `upsertBy` on the natural key (every mutable
attribute is rewritten from the fact).  Each edge `MERGE` keeps the `MATCH`
guards that precede it in its Cypher statement — repository for the
`BELONGS_TO` edges, developer and commit for `COMMITTED_BY`, repository and
commit for the typed change edges — evaluated against the state the earlier
statements of the same fact produced; the `ingestFact_*` lemmas prove these
guards always succeed.  The three per-type file loops are flattened into
`changePaths`/`changeEdges` in their execution order. -/
def ingestFact (s : GraphStore) (ri : RepoInfo) (x : CommitFact) : GraphStore :=
  let repos1 := upsertBy RepoNode.name s.repos (factRepoNode ri)
  let devs1 := upsertBy devKey s.devs (factDevNode ri x)
  let commits1 := upsertBy CommitNode.hash s.commits (factCommitNode x)
  { repos := repos1
    devs := devs1
    files := (changePaths x).foldl
      (fun l p => upsertBy fileKey l (factFileNode ri p)) s.files
    commits := commits1
    devBelongs := if ∃ r ∈ repos1, r.name = ri.name then
        insertOnce s.devBelongs ((effectiveGithub x, ri.name), ri.name)
      else s.devBelongs
    fileBelongs := if ∃ r ∈ repos1, r.name = ri.name then
        (changePaths x).foldl (fun l p => insertOnce l ((p, ri.name), ri.name))
          s.fileBelongs
      else s.fileBelongs
    commitBelongs := if ∃ r ∈ repos1, r.name = ri.name then
        insertOnce s.commitBelongs (x.sha, ri.name)
      else s.commitBelongs
    committedBy := if (∃ d ∈ devs1, devKey d = (effectiveGithub x, ri.name))
        ∧ (∃ c ∈ commits1, c.hash = x.sha) then
        insertOnce s.committedBy (x.sha, (effectiveGithub x, ri.name))
      else s.committedBy
    changes := if (∃ r ∈ repos1, r.name = ri.name)
        ∧ (∃ c ∈ commits1, c.hash = x.sha) then
        (changeEdges ri x).foldl insertOnce s.changes
      else s.changes }

lemma ingestFact_repoOk (s : GraphStore) (ri : RepoInfo) :
    ∃ r ∈ upsertBy RepoNode.name s.repos (factRepoNode ri), r.name = ri.name :=
  upsertBy_key_mem RepoNode.name s.repos (factRepoNode ri)

lemma ingestFact_devOk (s : GraphStore) (ri : RepoInfo) (x : CommitFact) :
    ∃ d ∈ upsertBy devKey s.devs (factDevNode ri x),
      devKey d = (effectiveGithub x, ri.name) :=
  upsertBy_key_mem devKey s.devs (factDevNode ri x)

lemma ingestFact_commitOk (s : GraphStore) (x : CommitFact) :
    ∃ c ∈ upsertBy CommitNode.hash s.commits (factCommitNode x), c.hash = x.sha :=
  upsertBy_key_mem CommitNode.hash s.commits (factCommitNode x)

lemma ingestFact_repos (s : GraphStore) (ri : RepoInfo) (x : CommitFact) :
    (ingestFact s ri x).repos = upsertBy RepoNode.name s.repos (factRepoNode ri) := rfl

lemma ingestFact_devs (s : GraphStore) (ri : RepoInfo) (x : CommitFact) :
    (ingestFact s ri x).devs = upsertBy devKey s.devs (factDevNode ri x) := rfl

lemma ingestFact_commits (s : GraphStore) (ri : RepoInfo) (x : CommitFact) :
    (ingestFact s ri x).commits = upsertBy CommitNode.hash s.commits (factCommitNode x) := rfl

lemma ingestFact_files (s : GraphStore) (ri : RepoInfo) (x : CommitFact) :
    (ingestFact s ri x).files
      = ((changePaths x).map (factFileNode ri)).foldl (upsertBy fileKey) s.files := by
  show (changePaths x).foldl (fun l p => upsertBy fileKey l (factFileNode ri p)) s.files = _
  rw [List.foldl_map]

lemma ingestFact_devBelongs (s : GraphStore) (ri : RepoInfo) (x : CommitFact) :
    (ingestFact s ri x).devBelongs
      = insertOnce s.devBelongs ((effectiveGithub x, ri.name), ri.name) := by
  show (if ∃ r ∈ upsertBy RepoNode.name s.repos (factRepoNode ri), r.name = ri.name then
      insertOnce s.devBelongs ((effectiveGithub x, ri.name), ri.name)
    else s.devBelongs) = _
  rw [if_pos (ingestFact_repoOk s ri)]

lemma ingestFact_fileBelongs (s : GraphStore) (ri : RepoInfo) (x : CommitFact) :
    (ingestFact s ri x).fileBelongs
      = ((changePaths x).map (fun p => ((p, ri.name), ri.name))).foldl insertOnce
          s.fileBelongs := by
  show (if ∃ r ∈ upsertBy RepoNode.name s.repos (factRepoNode ri), r.name = ri.name then
      (changePaths x).foldl (fun l p => insertOnce l ((p, ri.name), ri.name)) s.fileBelongs
    else s.fileBelongs) = _
  rw [if_pos (ingestFact_repoOk s ri), List.foldl_map]

lemma ingestFact_commitBelongs (s : GraphStore) (ri : RepoInfo) (x : CommitFact) :
    (ingestFact s ri x).commitBelongs = insertOnce s.commitBelongs (x.sha, ri.name) := by
  show (if ∃ r ∈ upsertBy RepoNode.name s.repos (factRepoNode ri), r.name = ri.name then
      insertOnce s.commitBelongs (x.sha, ri.name)
    else s.commitBelongs) = _
  rw [if_pos (ingestFact_repoOk s ri)]

lemma ingestFact_committedBy (s : GraphStore) (ri : RepoInfo) (x : CommitFact) :
    (ingestFact s ri x).committedBy
      = insertOnce s.committedBy (x.sha, (effectiveGithub x, ri.name)) := by
  show (if (∃ d ∈ upsertBy devKey s.devs (factDevNode ri x),
        devKey d = (effectiveGithub x, ri.name))
      ∧ (∃ c ∈ upsertBy CommitNode.hash s.commits (factCommitNode x), c.hash = x.sha) then
      insertOnce s.committedBy (x.sha, (effectiveGithub x, ri.name))
    else s.committedBy) = _
  rw [if_pos ⟨ingestFact_devOk s ri x, ingestFact_commitOk s x⟩]

lemma ingestFact_changes (s : GraphStore) (ri : RepoInfo) (x : CommitFact) :
    (ingestFact s ri x).changes = (changeEdges ri x).foldl insertOnce s.changes := by
  show (if (∃ r ∈ upsertBy RepoNode.name s.repos (factRepoNode ri), r.name = ri.name)
      ∧ (∃ c ∈ upsertBy CommitNode.hash s.commits (factCommitNode x), c.hash = x.sha) then
      (changeEdges ri x).foldl insertOnce s.changes
    else s.changes) = _
  rw [if_pos ⟨ingestFact_repoOk s ri, ingestFact_commitOk s x⟩]

/-- A batch of repository-tagged commit facts ingested in order. -/
def ingestBatch (s : GraphStore) (batch : List (RepoInfo × CommitFact)) : GraphStore :=
  batch.foldl (fun t p => ingestFact t p.1 p.2) s

lemma ingestBatch_repos (batch : List (RepoInfo × CommitFact)) :
    ∀ s : GraphStore, (ingestBatch s batch).repos
      = (batch.map (fun p => factRepoNode p.1)).foldl (upsertBy RepoNode.name) s.repos := by
  induction batch with
  | nil => intro s; rfl
  | cons p t ih =>
      intro s
      show (ingestBatch (ingestFact s p.1 p.2) t).repos = _
      rw [ih, List.map_cons, List.foldl_cons, ingestFact_repos]

lemma ingestBatch_devs (batch : List (RepoInfo × CommitFact)) :
    ∀ s : GraphStore, (ingestBatch s batch).devs
      = (batch.map (fun p => factDevNode p.1 p.2)).foldl (upsertBy devKey) s.devs := by
  induction batch with
  | nil => intro s; rfl
  | cons p t ih =>
      intro s
      show (ingestBatch (ingestFact s p.1 p.2) t).devs = _
      rw [ih, List.map_cons, List.foldl_cons, ingestFact_devs]

lemma ingestBatch_commits (batch : List (RepoInfo × CommitFact)) :
    ∀ s : GraphStore, (ingestBatch s batch).commits
      = (batch.map (fun p => factCommitNode p.2)).foldl (upsertBy CommitNode.hash)
          s.commits := by
  induction batch with
  | nil => intro s; rfl
  | cons p t ih =>
      intro s
      show (ingestBatch (ingestFact s p.1 p.2) t).commits = _
      rw [ih, List.map_cons, List.foldl_cons, ingestFact_commits]

lemma ingestBatch_files (batch : List (RepoInfo × CommitFact)) :
    ∀ s : GraphStore, (ingestBatch s batch).files
      = (batch.flatMap (fun p => (changePaths p.2).map (factFileNode p.1))).foldl
          (upsertBy fileKey) s.files := by
  induction batch with
  | nil => intro s; rfl
  | cons p t ih =>
      intro s
      show (ingestBatch (ingestFact s p.1 p.2) t).files = _
      rw [ih, List.flatMap_cons, List.foldl_append, ingestFact_files]

lemma ingestBatch_devBelongs (batch : List (RepoInfo × CommitFact)) :
    ∀ s : GraphStore, (ingestBatch s batch).devBelongs
      = (batch.map (fun p => ((effectiveGithub p.2, p.1.name), p.1.name))).foldl
          insertOnce s.devBelongs := by
  induction batch with
  | nil => intro s; rfl
  | cons p t ih =>
      intro s
      show (ingestBatch (ingestFact s p.1 p.2) t).devBelongs = _
      rw [ih, List.map_cons, List.foldl_cons, ingestFact_devBelongs]

lemma ingestBatch_fileBelongs (batch : List (RepoInfo × CommitFact)) :
    ∀ s : GraphStore, (ingestBatch s batch).fileBelongs
      = (batch.flatMap (fun p =>
          (changePaths p.2).map (fun q => ((q, p.1.name), p.1.name)))).foldl
          insertOnce s.fileBelongs := by
  induction batch with
  | nil => intro s; rfl
  | cons p t ih =>
      intro s
      show (ingestBatch (ingestFact s p.1 p.2) t).fileBelongs = _
      rw [ih, List.flatMap_cons, List.foldl_append, ingestFact_fileBelongs]

lemma ingestBatch_commitBelongs (batch : List (RepoInfo × CommitFact)) :
    ∀ s : GraphStore, (ingestBatch s batch).commitBelongs
      = (batch.map (fun p => (p.2.sha, p.1.name))).foldl insertOnce s.commitBelongs := by
  induction batch with
  | nil => intro s; rfl
  | cons p t ih =>
      intro s
      show (ingestBatch (ingestFact s p.1 p.2) t).commitBelongs = _
      rw [ih, List.map_cons, List.foldl_cons, ingestFact_commitBelongs]

lemma ingestBatch_committedBy (batch : List (RepoInfo × CommitFact)) :
    ∀ s : GraphStore, (ingestBatch s batch).committedBy
      = (batch.map (fun p => (p.2.sha, (effectiveGithub p.2, p.1.name)))).foldl
          insertOnce s.committedBy := by
  induction batch with
  | nil => intro s; rfl
  | cons p t ih =>
      intro s
      show (ingestBatch (ingestFact s p.1 p.2) t).committedBy = _
      rw [ih, List.map_cons, List.foldl_cons, ingestFact_committedBy]

lemma ingestBatch_changes (batch : List (RepoInfo × CommitFact)) :
    ∀ s : GraphStore, (ingestBatch s batch).changes
      = (batch.flatMap (fun p => changeEdges p.1 p.2)).foldl insertOnce s.changes := by
  induction batch with
  | nil => intro s; rfl
  | cons p t ih =>
      intro s
      show (ingestBatch (ingestFact s p.1 p.2) t).changes = _
      rw [ih, List.flatMap_cons, List.foldl_append, ingestFact_changes]

attribute [ext] GraphStore

/-- C4, confirmed.  Ingesting any batch of commit facts a second time leaves
the contribution graph exactly as it was after the first ingestion: every
node `MERGE` finds its natural key and rewrites the same attribute values
(last writer per key wins, identically in both passes), and every edge
`MERGE` finds the edge already present — the same entities and edges, with
no duplicates. -/
theorem ingest_batch_idempotent (s : GraphStore) (batch : List (RepoInfo × CommitFact)) :
    ingestBatch (ingestBatch s batch) batch = ingestBatch s batch := by
  apply GraphStore.ext
  · rw [ingestBatch_repos batch (ingestBatch s batch), ingestBatch_repos batch s]
    exact foldl_upsertBy_idem RepoNode.name s.repos _
  · rw [ingestBatch_devs batch (ingestBatch s batch), ingestBatch_devs batch s]
    exact foldl_upsertBy_idem devKey s.devs _
  · rw [ingestBatch_files batch (ingestBatch s batch), ingestBatch_files batch s]
    exact foldl_upsertBy_idem fileKey s.files _
  · rw [ingestBatch_commits batch (ingestBatch s batch), ingestBatch_commits batch s]
    exact foldl_upsertBy_idem CommitNode.hash s.commits _
  · rw [ingestBatch_devBelongs batch (ingestBatch s batch), ingestBatch_devBelongs batch s]
    exact foldl_insertOnce_idem s.devBelongs _
  · rw [ingestBatch_fileBelongs batch (ingestBatch s batch), ingestBatch_fileBelongs batch s]
    exact foldl_insertOnce_idem s.fileBelongs _
  · rw [ingestBatch_commitBelongs batch (ingestBatch s batch),
      ingestBatch_commitBelongs batch s]
    exact foldl_insertOnce_idem s.commitBelongs _
  · rw [ingestBatch_committedBy batch (ingestBatch s batch), ingestBatch_committedBy batch s]
    exact foldl_insertOnce_idem s.committedBy _
  · rw [ingestBatch_changes batch (ingestBatch s batch), ingestBatch_changes batch s]
    exact foldl_insertOnce_idem s.changes _

/-- `process_commit_data`: `if not repository_info: return` — a missing
(falsy) `repository_info` returns immediately; otherwise the fact (with the
`or []` defaults applied to the three change lists) is handed to the
synchronous worker `_process_commit_sync`, modelled by `ingestFact`. -/
def process_commit_data (s : GraphStore)
    (sha author_name author_email author_github date message : String)
    (added_files modified_files deleted_files : Option (List String))
    (repository_info : Option RepoInfo) : GraphStore :=
  match repository_info with
  | none => s
  | some ri =>
      ingestFact s ri
        { sha := sha
          author_name := author_name
          author_email := author_email
          author_github := author_github
          date := date
          message := message
          added_files := added_files.getD []
          modified_files := modified_files.getD []
          deleted_files := deleted_files.getD [] }

/-- C10, confirmed.  With a missing (falsy) `repository_info` the call
returns the store untouched: no entity and no edge is created or updated,
and no error is raised (the embedding is total and the equation is
definitional). -/
theorem process_commit_data_no_repo_noop (s : GraphStore)
    (sha author_name author_email author_github date message : String)
    (added_files modified_files deleted_files : Option (List String)) :
    process_commit_data s sha author_name author_email author_github date message
      added_files modified_files deleted_files none = s := rfl

end DevInsights
